import Mathlib

/-!
# Verification of the caffe indexed-data reader and common layers

Shallow embedding of `src/include/caffe/common_layers.hpp` and of the
indexed-data reader header (`caffe/util/indexed_data.hpp`).  Blob values
(`Dtype`) are modelled as rationals except for the Softmax layer, whose
numeric rule involves the exponential and is modelled over the reals.
Implementations whose bodies are absent from the repository headers are
modelled from the specification; each such definition says so in its
doc comment.
-/

namespace Caffe

/-! ## index_type (`typedef uint32_t index_type;`)

The reader interface declares lengths and return values as `index_type`,
an unsigned 32-bit integer.  We model it as a natural number strictly
below `2^32`; C++ unsigned arithmetic wraps modulo `2^32`. -/

/-- The modulus of `index_type` (`uint32_t`): `2^32`. -/
def indexTypeMod : Nat := 4294967296

/-- Model of `index_type` (`typedef uint32_t index_type;` in
`indexed_data.hpp`): a natural number strictly below `2^32`. -/
structure index_type where
  val : Nat
  isLt : val < indexTypeMod
deriving DecidableEq

/-- C++ unsigned addition on `index_type`: wraps modulo `2^32`. -/
def index_type.add (a b : index_type) : index_type :=
  ⟨(a.val + b.val) % indexTypeMod, Nat.mod_lt _ (by decide)⟩

/-- Embed a natural number into `index_type` the way C++ converts an
unsigned quantity to `uint32_t`: reduce modulo `2^32`. -/
def index_type.ofNat (n : Nat) : index_type :=
  ⟨n % indexTypeMod, Nat.mod_lt _ (by decide)⟩

/-! ## IndexedDataReader and LinearIndexedStorage -/

/-- Copy values from `src` into the caller-provided buffer `buf`,
element by element, stopping when either the source or the remaining
buffer capacity runs out.  This models the copy loop of a reader's
`read` writing into caller-allocated storage: positions past the copied
region keep the buffer's previous contents. -/
def writeInto : List ℚ → List ℚ → List ℚ
  | [], buf => buf
  | _, [] => []
  | s :: ss, _ :: bs => s :: writeInto ss bs

/-- Structure `LinearIndexedStorage` (from `indexed_data.hpp`): an in-memory
array-backed reader with a contiguous value buffer `data_` and an index
table `indices_`.  Record `i` occupies the half-open range
`[indices_[i], indices_[i+1])` of `data_`, which is the stored
offset/length pair for index `i`. -/
structure LinearIndexedStorage where
  data_ : List ℚ
  indices_ : List Nat
deriving DecidableEq

/-- Modelled from the spec: `LinearIndexedStorage::read` (its body is
not among the repository headers) "looks up a stored offset/length pair
for `index`, copies from the shared in-memory buffer".  The reader is
stateless, so the storage is returned unchanged; the result is the
updated caller buffer together with the record's actual length, or
`none` when the index is out of range.  The caller buffer's length is
its capacity `L`. -/
def LinearIndexedStorage.read (st : LinearIndexedStorage) (index : Nat)
    (buf : List ℚ) : Option (LinearIndexedStorage × List ℚ × Nat) :=
  match st.indices_[index]?, st.indices_[index + 1]? with
  | some off, some nxt =>
      some (st, writeInto ((st.data_.drop off).take (nxt - off)) buf, nxt - off)
  | _, _ => none

/-- The record stored for `index`: the segment of `data_` between the
offsets `off` and `nxt` taken from the index table. -/
def LinearIndexedStorage.record (st : LinearIndexedStorage) (off nxt : Nat) : List ℚ :=
  (st.data_.drop off).take (nxt - off)

/-- Typed wrapper of `read` matching the C++ signature
`index_type read(index_type index, Dtype* out, index_type length)`:
the requested length and the returned actual length are both
`index_type` (unsigned 32-bit) values, so the reported length is the
true record length reduced modulo `2^32`. -/
def LinearIndexedStorage.readT (st : LinearIndexedStorage) (index : index_type)
    (buf : List ℚ) (length : index_type) :
    Option (LinearIndexedStorage × List ℚ × index_type) :=
  match st.read index.val (buf.take length.val) with
  | some (st1, out, actual) => some (st1, out, index_type.ofNat actual)
  | none => none

/-! ## IndexedDataReadCache -/

/-- Structure `IndexedDataReadCache` (from `indexed_data.hpp`): wraps a reader
and a fixed record length `length_`.  The wrapped reader is abstracted
as the pure per-index record function `reader_` (justified by the
interface's determinism law); `memo_` is the memo table of the cache.
The repository header stores only `reader_` and `length_` and leaves
the memoizing `read` as a contract, so `memo_` starts empty. -/
structure IndexedDataReadCache where
  reader_ : Nat → List ℚ
  length_ : Nat
  memo_ : List (Nat × List ℚ)

/-- Accessor `IndexedDataReadCache::data_length` (inline in `indexed_data.hpp`):
returns the configured uniform record length. -/
def IndexedDataReadCache.data_length (c : IndexedDataReadCache) : Nat :=
  c.length_

/-- Modelled from the spec: the cache's `read` (contract only in the
header): on a memo hit return the memoized record without re-invoking
the wrapped reader; on a miss delegate to the wrapped reader and
memoize the result. -/
def IndexedDataReadCache.readCached (c : IndexedDataReadCache) (i : Nat) :
    IndexedDataReadCache × List ℚ :=
  match c.memo_.lookup i with
  | some v => (c, v)
  | none =>
      ({ c with memo_ := (i, c.reader_ i) :: c.memo_ }, c.reader_ i)

/-- Run a sequence of cached reads, threading the cache state. -/
def IndexedDataReadCache.runReads (c : IndexedDataReadCache) : List Nat → IndexedDataReadCache
  | [] => c
  | i :: is => ((c.readCached i).1).runReads is

/-- Cache coherence invariant: every memoized record is the wrapped
reader's record for that index.  Holds for the empty memo and is
preserved by `readCached`. -/
def IndexedDataReadCache.Coherent (c : IndexedDataReadCache) : Prop :=
  ∀ i v, c.memo_.lookup i = some v → v = c.reader_ i

/-! ## Blobs -/

/-- The forward-pass view of a `Blob`: a rank-4 dense array with shape
`(num, channels, height, width)` and a flat row-major value plane.
Layer `Forward` computes top data from bottom data. -/
structure DataBlob where
  num : Nat
  channels : Nat
  height : Nat
  width : Nat
  data : List ℚ
deriving DecidableEq

/-- Definition of `Blob::count()`: the product of the four dimensions. -/
def DataBlob.count (b : DataBlob) : Nat :=
  b.num * b.channels * b.height * b.width

/-- A `Blob` with both planes, as used by `Backward`: a data plane and
a diff (gradient) plane. -/
structure Blob where
  num : Nat
  channels : Nat
  height : Nat
  width : Nat
  data : List ℚ
  diff : List ℚ
deriving DecidableEq

/-- The contiguous chunk number `n` of size `s` of a flat list:
elements `[n*s, (n+1)*s)`.  Used to address one sample (or one
per-sample block) inside a row-major blob buffer. -/
def chunk {α : Type} (l : List α) (s n : Nat) : List α :=
  (l.drop (n * s)).take s

/-! ## SilenceLayer -/

namespace SilenceLayer

/-- Declaration `SilenceLayer::ExactNumTopBlobs` (inline in `common_layers.hpp`):
`{ return 0; }`. -/
def ExactNumTopBlobs : Int := 0

/-- Definition of `SilenceLayer::Forward_cpu` (inline in `common_layers.hpp`): an
empty body `{}`; neither bottom nor top blobs are touched. -/
def Forward_cpu (bottom top : List Blob) : List Blob × List Blob :=
  (bottom, top)

/-- Modelled from the spec: `SilenceLayer::Backward_cpu` (declared
only in the header) "fills bottom diff with zero"; data planes are
left unchanged. -/
def Backward_cpu (top : List Blob) (propagate_down : List Bool)
    (bottom : List Blob) : List Blob :=
  bottom.map fun b => { b with diff := List.replicate b.diff.length 0 }

end SilenceLayer

/-! ## ArgMaxLayer -/

namespace ArgMaxLayer

/-- Definition of `ArgMaxLayer::Backward_cpu` (inline in `common_layers.hpp`):
`{ NOT_IMPLEMENTED; }`, i.e. a fatal "Not Implemented Yet" failure for
every input; no bottom diffs are produced. -/
def Backward_cpu (top : List Blob) (propagate_down : List Bool)
    (bottom : List Blob) : Except String (List Blob) :=
  Except.error "Not Implemented Yet"

/-- Comparison used to order `(value, index)` pairs: `a` comes before
`b` when `a`'s value is larger, or on equal values when `a`'s index is
smaller (ties broken by first-seen index). -/
def keyLe (a b : ℚ × Nat) : Bool :=
  decide (b.1 < a.1 ∨ (a.1 = b.1 ∧ a.2 ≤ b.2))

/-- Modelled from the spec: per-sample top-K selection of
`ArgMaxLayer::Forward_cpu` (its body is not among the repository
headers): pair each value of the sample with its index, sort the pairs
by descending value with ties broken by first-seen (smaller) index, and
keep the first `k`.  Results are `(value, index)` pairs. -/
def topKSelect (k : Nat) (xs : List ℚ) : List (ℚ × Nat) :=
  ((xs.enum.map (fun p => (p.2, p.1))).mergeSort keyLe).take k

/-- Modelled from the spec: `ArgMaxLayer::Forward_cpu`.  For each of
the `N` samples select the `top_k` largest values across all
non-sample dimensions; the output has shape `(N, 1, K, 1)`, or
`(N, 2, K, 1)` when `out_max_val` is set, and row `n` holds the `K`
selected indices followed (when `out_max_val` is set) by the `K`
selected values. -/
def Forward_cpu (out_max_val : Bool) (top_k : Nat) (bottom : DataBlob) : DataBlob :=
  let dim := bottom.channels * bottom.height * bottom.width
  { num := bottom.num
    channels := if out_max_val then 2 else 1
    height := top_k
    width := 1
    data := ((List.range bottom.num).flatMap
      (fun n => (topKSelect top_k (chunk bottom.data dim n)).map
          (fun p => (p.2 : ℚ)) ++
        (if out_max_val then
          (topKSelect top_k (chunk bottom.data dim n)).map (fun p => p.1)
        else []))) }

/-- The top-K selection contract, stated from the spec's words: the
selection has exactly `k` entries; each entry is a genuine
(value, index) pair of the sample; entries are listed in descending
value order with ties broken by first-seen (smaller) index; and the
selection consists of the `k` largest entries — the remaining pairs of
the sample are all dominated by every selected one. -/
def TopKSpec (k : Nat) (xs : List ℚ) (sel : List (ℚ × Nat)) : Prop :=
  sel.length = k ∧
  (∀ p ∈ sel, p.2 < xs.length ∧ xs[p.2]? = some p.1) ∧
  List.Pairwise (fun a b : ℚ × Nat => b.1 < a.1 ∨ (a.1 = b.1 ∧ a.2 < b.2)) sel ∧
  ∃ rest, (sel ++ rest).Perm (xs.enum.map (fun p => (p.2, p.1))) ∧
    ∀ a ∈ sel, ∀ b ∈ rest, b.1 < a.1 ∨ (a.1 = b.1 ∧ a.2 ≤ b.2)

end ArgMaxLayer

/-! ## ConcatLayer and SliceLayer

Both layers move contiguous per-outer-index chunks between one big
buffer and several small ones.  `genConcat`/`genSlice` express the two
copy loops once, parameterized by the number `o` of outer indices
(`1` when the layer works along dim 0, `num` when along dim 1) and the
per-input chunk sizes. -/

/-- Split a flat list into consecutive segments of the given sizes. -/
def splitSizes : List Nat → List ℚ → List (List ℚ)
  | [], _ => []
  | s :: ss, l => l.take s :: splitSizes ss (l.drop s)

/-- The concatenation copy loop of `ConcatLayer::Forward_cpu`: for
each outer index `n < o` copy chunk `n` of every input, in listed
order, into the output.  `datas` are the inputs' flat buffers and
`sizes` their per-outer-index chunk sizes. -/
def genConcat (o : Nat) (datas : List (List ℚ)) (sizes : List Nat) : List ℚ :=
  (List.range o).flatMap
    (fun n => (datas.zip sizes).flatMap (fun p => chunk p.1 p.2 n))

/-- The slicing copy loop of `SliceLayer::Forward_cpu`: output `k`
receives, for each outer index `n < o`, the `k`-th piece (of size
`sizes[k]`) of the `n`-th outer chunk of the input buffer. -/
def genSlice (o : Nat) (sizes : List Nat) (l : List ℚ) : List (List ℚ) :=
  (List.range sizes.length).map
    (fun k => (List.range o).flatMap
      (fun n => (splitSizes sizes (chunk l sizes.sum n)).getD k []))

namespace ConcatLayer

/-- Modelled from the spec: `ConcatLayer::Forward_cpu` (its body is
not among the repository headers) copies all inputs along
`concat_dim_` (0: along num, 1: along channels) in listed order into
contiguous regions of the single top blob; all non-concatenated
dimensions match across inputs. -/
def Forward_cpu (concat_dim : Nat) (bottoms : List DataBlob) : DataBlob :=
  match bottoms with
  | [] => ⟨0, 0, 0, 0, []⟩
  | b0 :: _ =>
    if concat_dim = 0 then
      { num := (bottoms.map DataBlob.num).sum
        channels := b0.channels, height := b0.height, width := b0.width
        data := genConcat 1 (bottoms.map DataBlob.data)
          (bottoms.map (fun b => b.num * (b.channels * b.height * b.width))) }
    else
      { num := b0.num
        channels := (bottoms.map DataBlob.channels).sum
        height := b0.height, width := b0.width
        data := genConcat b0.num (bottoms.map DataBlob.data)
          (bottoms.map (fun b => b.channels * b.height * b.width)) }

end ConcatLayer

namespace SliceLayer

/-- Modelled from the spec: `SliceLayer::Forward_cpu` (its body is not
among the repository headers) partitions the bottom blob along
`slice_dim_` (0: along num, 1: along channels) into contiguous top
blobs; `extents` are the per-output sizes along the slice dimension,
i.e. the successive differences of the cut points. -/
def Forward_cpu (slice_dim : Nat) (extents : List Nat) (t : DataBlob) :
    List DataBlob :=
  if slice_dim = 0 then
    (extents.zip (genSlice 1
        (extents.map (fun e => e * (t.channels * t.height * t.width))) t.data)).map
      (fun p => ⟨p.1, t.channels, t.height, t.width, p.2⟩)
  else
    (extents.zip (genSlice t.num
        (extents.map (fun e => e * (t.height * t.width))) t.data)).map
      (fun p => ⟨t.num, p.1, t.height, t.width, p.2⟩)

end SliceLayer

/-! ## SoftmaxLayer

The softmax numeric rule involves the exponential, so it is modelled
over the reals (the C++ computes with floating-point `Dtype`). -/

/-- A forward-pass blob over the reals, for the Softmax layer. -/
structure RDataBlob where
  num : Nat
  channels : Nat
  height : Nat
  width : Nat
  data : List ℝ

namespace SoftmaxLayer

/-- Modelled from the spec: the per-sample softmax rule of
`SoftmaxLayer::Forward_cpu` (its body is not among the repository
headers): subtract the per-sample maximum for numerical stability,
exponentiate, and normalize by the per-sample sum. -/
noncomputable def softmaxSample : List ℝ → List ℝ
  | [] => []
  | x :: rest =>
    let m := rest.foldl max x
    let e := (x :: rest).map (fun v => Real.exp (v - m))
    e.map (fun v => v / e.sum)

/-- Modelled from the spec: `SoftmaxLayer::Forward_cpu` applies the
per-sample softmax rule independently to each of the `num` samples of
the bottom blob (each sample spanning all non-sample dimensions). -/
noncomputable def Forward_cpu (b : RDataBlob) : RDataBlob :=
  let dim := b.channels * b.height * b.width
  { b with data := ((List.range b.num).flatMap
      (fun n => softmaxSample (chunk b.data dim n))) }

end SoftmaxLayer

/-! ## FilterLayer -/

namespace FilterLayer

/-- Declaration `FilterLayer::ExactNumTopBlobs` (inline in `common_layers.hpp`):
`{ return 2; }` — the declared top-blob count is the constant 2. -/
def ExactNumTopBlobs : Int := 2

/-- Modelled from the spec: the blob-count contract check of the layer
base class ("each layer declares exact or minimum/maximum bottom/top
blob counts; violating this is a configuration error"): a layer
declaring an exact top-blob count accepts exactly that number of top
blobs. -/
def checkTopCount (declared : Int) (n : Nat) : Bool :=
  (n : Int) == declared

/-- Whether a configuration with `n` top blobs passes the Filter
layer's declared top-blob-count contract. -/
def topPermitted (n : Nat) : Bool :=
  checkTopCount ExactNumTopBlobs n

/-- Modelled from the spec: `indices_to_forward_`, recomputed every
forward pass — the subset of sample indices whose conditional (IF)
value equals the target label, in original order. -/
def indicesToForward (ifVals : List ℚ) (label : ℚ) : List Nat :=
  (List.range ifVals.length).filter (fun n => ifVals.getD n 0 == label)

/-- Modelled from the spec: `FilterLayer::Forward_cpu` (its body is
not among the repository headers): evaluate the conditional per
sample, and copy only the samples at the selected indices of the
labels blob and of the TO_BE_FORWARDED blob, compacted, into the two
top blobs `top_labels_or_indices` and `top_THEN`; each top blob's
leading dimension is the number `S` of samples that passed the test. -/
def Forward_cpu (ifVals : List ℚ) (label : ℚ)
    (toForward labels : DataBlob) : List DataBlob :=
  let idx := indicesToForward ifVals label
  let s := idx.length
  [ { num := s
      channels := labels.channels, height := labels.height, width := labels.width
      data := idx.flatMap
        (fun n => chunk labels.data (labels.channels * labels.height * labels.width) n) },
    { num := s
      channels := toForward.channels, height := toForward.height, width := toForward.width
      data := idx.flatMap
        (fun n => chunk toForward.data
          (toForward.channels * toForward.height * toForward.width) n) } ]

end FilterLayer

end Caffe

open Caffe

/-! ## General list lemmas used by several layer proofs -/

/-- Writing a source list into a buffer yields the source truncated to
the buffer's capacity, followed by the untouched tail of the buffer. -/
theorem writeInto_eq (src buf : List ℚ) :
    writeInto src buf = src.take buf.length ++ buf.drop src.length := by
  induction src generalizing buf with
  | nil => simp [writeInto]
  | cons s ss ih =>
    cases buf with
    | nil => simp [writeInto]
    | cons b bs => simp [writeInto, ih bs]

/-- The length of a flattening of uniformly sized rows. -/
theorem length_flatMap_range {α : Type} (f : Nat → List α) (S o : Nat)
    (hlen : ∀ n < o, (f n).length = S) :
    ((List.range o).flatMap f).length = o * S := by
  induction o with
  | zero => simp
  | succ o ih =>
    rw [List.range_succ, List.flatMap_append, List.flatMap_cons,
      List.flatMap_nil, List.append_nil, List.length_append,
      ih (fun n hn => hlen n (by omega)), hlen o (by omega), Nat.succ_mul]

/-- A chunk of a flattening of uniformly sized rows is the
corresponding row. -/
theorem chunk_flatMap_range {α : Type} (f : Nat → List α) (S o : Nat)
    (hlen : ∀ n < o, (f n).length = S) :
    ∀ n < o, chunk ((List.range o).flatMap f) S n = f n := by
  induction o with
  | zero => intro n hn; omega
  | succ o ih =>
    have hlen' : ∀ n < o, (f n).length = S := fun n hn => hlen n (by omega)
    have hpre : ((List.range o).flatMap f).length = o * S :=
      length_flatMap_range f S o hlen'
    intro n hn
    rw [List.range_succ, List.flatMap_append, List.flatMap_cons,
      List.flatMap_nil, List.append_nil]
    rcases Nat.lt_or_ge n o with h | h
    · have hle1 : n * S + S ≤ o * S := by
        have h2 : (n + 1) * S ≤ o * S := Nat.mul_le_mul_right S h
        rw [Nat.succ_mul] at h2
        exact h2
      unfold chunk
      rw [List.drop_append_of_le_length (by omega),
        List.take_append_of_le_length (by rw [List.length_drop]; omega)]
      have hchunk := ih hlen' n h
      unfold chunk at hchunk
      exact hchunk
    · have hno : n = o := by omega
      subst hno
      unfold chunk
      rw [List.drop_left' (by rw [hpre]),
        List.take_of_length_le (by rw [hlen n hn])]

/-- Chunks strictly inside a prefix of a list agree with the chunks of
the prefix. -/
theorem chunk_take {α : Type} (l : List α) (s o n : Nat) (hn : n < o) :
    chunk (l.take (o * s)) s n = chunk l s n := by
  unfold chunk
  rw [List.drop_take, List.take_take]
  congr 1
  have h2 : n * s + s ≤ o * s := by
    have := Nat.mul_le_mul_right s hn
    rw [Nat.succ_mul] at this
    exact this
  omega

/-- Joining all `o` chunks of size `s` of a list of length `o * s`
reconstructs the list. -/
theorem flatMap_chunk_range {α : Type} (l : List α) (s o : Nat)
    (hl : l.length = o * s) :
    (List.range o).flatMap (fun n => chunk l s n) = l := by
  induction o generalizing l with
  | zero => simp at hl; simp [hl]
  | succ o ih =>
    rw [Nat.succ_mul] at hl
    rw [List.range_succ, List.flatMap_append, List.flatMap_cons,
      List.flatMap_nil, List.append_nil]
    have h1 : (List.range o).flatMap (fun n => chunk l s n)
        = (List.range o).flatMap (fun n => chunk (l.take (o * s)) s n) := by
      rw [List.flatMap_def, List.flatMap_def]
      congr 1
      refine List.map_congr_left (fun n hn => ?_)
      rw [chunk_take l s o n (List.mem_range.mp hn)]
    have h2 : (l.take (o * s)).length = o * s := by
      rw [List.length_take]; omega
    have h3 : chunk l s o = l.drop (o * s) := by
      unfold chunk
      refine List.take_of_length_le ?_
      rw [List.length_drop]; omega
    rw [h1, ih (l.take (o * s)) h2, h3, List.take_append_drop]

/-! ## Claim C2: ArgMax Backward is a hard failure -/

/-- C2: Invoking Backward on the ArgMax layer, for every top-diff
input and every propagate_down mask, is a hard, explicit failure (the
"Not Implemented Yet" error of `NOT_IMPLEMENTED`), never a silent
no-op: no bottom-blob list is ever returned. -/
theorem claim_C2_argmax_backward_not_implemented :
    ∀ (top : List Blob) (propagate_down : List Bool) (bottom : List Blob),
      ArgMaxLayer.Backward_cpu top propagate_down bottom
        = Except.error "Not Implemented Yet" ∧
      ∀ bottom2, ArgMaxLayer.Backward_cpu top propagate_down bottom
        ≠ Except.ok bottom2 := by
  intro top pd bottom
  exact ⟨rfl, fun bottom2 h => by simp [ArgMaxLayer.Backward_cpu] at h⟩

/-! ## Claim C8: the Silence layer -/

/-- C8: The Silence layer declares exactly zero top blobs; Forward
performs no computation (every blob's data and diff planes are left
exactly as given), and Backward replaces each bottom blob's diff plane
by an all-zero plane of the same length while leaving shapes and all
data planes unchanged. -/
theorem claim_C8_silence_layer :
    SilenceLayer.ExactNumTopBlobs = 0 ∧
    (∀ bottom top : List Blob, SilenceLayer.Forward_cpu bottom top = (bottom, top)) ∧
    (∀ (top : List Blob) (pd : List Bool) (bottom : List Blob),
      (SilenceLayer.Backward_cpu top pd bottom).map Blob.data
          = bottom.map Blob.data ∧
      (SilenceLayer.Backward_cpu top pd bottom).map
            (fun b => (b.num, b.channels, b.height, b.width))
          = bottom.map (fun b => (b.num, b.channels, b.height, b.width)) ∧
      (SilenceLayer.Backward_cpu top pd bottom).map Blob.diff
          = bottom.map (fun b => List.replicate b.diff.length (0 : ℚ))) := by
  refine ⟨rfl, fun bottom top => rfl, fun top pd bottom => ?_⟩
  refine ⟨?_, ?_, ?_⟩ <;> simp [SilenceLayer.Backward_cpu]

/-! ## Claim C1: the Filter layer's top-blob count -/

/-- C1 counterexample: with the conditional blob `[0,1,0,0]` and
target label `1` exactly `S = 1` sample passes the test (and `1 ≤ 4`),
yet the Filter layer's forward pass produces 2 top blobs, the declared
contract `ExactNumTopBlobs` is the constant 2, and a configuration
with 1 top blob is rejected — so the declared top-blob-count contract
does not permit a data-dependent number of top blobs. -/
theorem claim_C1_counterexample :
    (FilterLayer.indicesToForward [0, 1, 0, 0] 1).length = 1 ∧
    (1 : Nat) ≤ 4 ∧
    (FilterLayer.Forward_cpu [0, 1, 0, 0] 1
        ⟨4, 1, 1, 1, [5, 6, 7, 8]⟩ ⟨4, 1, 1, 1, [0, 1, 0, 0]⟩).length = 2 ∧
    (FilterLayer.Forward_cpu [0, 1, 0, 0] 1
        ⟨4, 1, 1, 1, [5, 6, 7, 8]⟩ ⟨4, 1, 1, 1, [0, 1, 0, 0]⟩).length ≠ 1 ∧
    FilterLayer.topPermitted 1 = false ∧
    FilterLayer.ExactNumTopBlobs = 2 := by
  refine ⟨by decide, by decide, rfl, by decide, by decide, rfl⟩

/-- C1 (amended): For the Filter layer the number of top blobs is
fixed — the declared top-blob-count contract requires exactly 2 top
blobs and the forward pass always produces exactly 2 — while what is
data-dependent and recomputed every forward pass is each top blob's
leading (sample) dimension, equal to the number `S ≤ N` of samples
that passed the conditional test. -/
theorem claim_C1_amended_filter_top_count :
    ∀ (ifVals : List ℚ) (label : ℚ) (toForward labels : DataBlob),
      (FilterLayer.Forward_cpu ifVals label toForward labels).length = 2 ∧
      FilterLayer.topPermitted
        (FilterLayer.Forward_cpu ifVals label toForward labels).length = true ∧
      (∀ t ∈ FilterLayer.Forward_cpu ifVals label toForward labels,
        t.num = (FilterLayer.indicesToForward ifVals label).length) ∧
      (FilterLayer.indicesToForward ifVals label).length ≤ ifVals.length := by
  intro ifVals label toForward labels
  refine ⟨rfl, ?_, ?_, ?_⟩
  · show FilterLayer.topPermitted 2 = true
    decide
  · intro t ht
    simp [FilterLayer.Forward_cpu] at ht
    rcases ht with h | h <;> rw [h]
  · unfold FilterLayer.indicesToForward
    calc ((List.range ifVals.length).filter
            (fun n => ifVals.getD n 0 == label)).length
        ≤ (List.range ifVals.length).length := List.length_filter_le _ _
      _ = ifVals.length := List.length_range ifVals.length

/-- C1 witness: the amended statement applied at the concrete
conditional blob `[0,1,0,1]` with target label 1. -/
theorem claim_C1_amended_witness :
    (FilterLayer.Forward_cpu [0, 1, 0, 1] 1
        ⟨4, 1, 1, 1, [5, 6, 7, 8]⟩ ⟨4, 1, 1, 1, [0, 1, 0, 1]⟩).length = 2 ∧
    FilterLayer.topPermitted
      (FilterLayer.Forward_cpu [0, 1, 0, 1] 1
        ⟨4, 1, 1, 1, [5, 6, 7, 8]⟩ ⟨4, 1, 1, 1, [0, 1, 0, 1]⟩).length = true ∧
    (∀ t ∈ FilterLayer.Forward_cpu [0, 1, 0, 1] 1
        ⟨4, 1, 1, 1, [5, 6, 7, 8]⟩ ⟨4, 1, 1, 1, [0, 1, 0, 1]⟩,
      t.num = (FilterLayer.indicesToForward [0, 1, 0, 1] 1).length) ∧
    (FilterLayer.indicesToForward [0, 1, 0, 1] 1).length ≤
      ([0, 1, 0, 1] : List ℚ).length :=
  claim_C1_amended_filter_top_count [0, 1, 0, 1] 1
    ⟨4, 1, 1, 1, [5, 6, 7, 8]⟩ ⟨4, 1, 1, 1, [0, 1, 0, 1]⟩

/-! ## Claim C10: index_type is an unsigned 32-bit integer -/

/-- C10: In the reader interface the requested length and the returned
actual record length are both `index_type` (unsigned 32-bit): every
length value is strictly below `2^32`, every length the typed `read`
reports is strictly below `2^32`, and arithmetic on lengths wraps
modulo `2^32`. -/
theorem claim_C10_index_type_is_u32 :
    (∀ l : index_type, l.val < 2 ^ 32) ∧
    (∀ a b : index_type, (a.add b).val = (a.val + b.val) % 2 ^ 32) ∧
    (∀ (st : LinearIndexedStorage) (i : index_type) (buf : List ℚ)
        (len : index_type) st2 out r,
      st.readT i buf len = some (st2, out, r) → r.val < 2 ^ 32) := by
  have hmod : indexTypeMod = 2 ^ 32 := by decide
  refine ⟨fun l => hmod ▸ l.isLt, fun a b => ?_, ?_⟩
  · show (a.val + b.val) % indexTypeMod = (a.val + b.val) % 2 ^ 32
    rw [hmod]
  · intro st i buf len st2 out r h
    exact hmod ▸ r.isLt

/-- C10 witness: the bounds and the wrap law at concrete values,
including a concrete successful typed read. -/
theorem claim_C10_witness :
    (⟨7, by decide⟩ : index_type).val < 2 ^ 32 ∧
    ((⟨4294967295, by decide⟩ : index_type).add ⟨2, by decide⟩).val
      = (4294967295 + 2) % 2 ^ 32 ∧
    ((⟨[10, 20, 30], [0, 2, 3]⟩ : LinearIndexedStorage).readT
        ⟨0, by decide⟩ [0, 0] ⟨2, by decide⟩
      = some (⟨[10, 20, 30], [0, 2, 3]⟩, [10, 20], ⟨2, by decide⟩)) ∧
    (⟨2, by decide⟩ : index_type).val < 2 ^ 32 := by
  refine ⟨claim_C10_index_type_is_u32.1 _, claim_C10_index_type_is_u32.2.1 _ _, rfl, ?_⟩
  exact claim_C10_index_type_is_u32.2.2 ⟨[10, 20, 30], [0, 2, 3]⟩
    ⟨0, by decide⟩ [0, 0] ⟨2, by decide⟩ ⟨[10, 20, 30], [0, 2, 3]⟩ [10, 20]
    ⟨2, by decide⟩ rfl

/-! ## Claims C3 and C4: the reader's read contract -/

/-- A successful `read` leaves the storage unchanged (the reader is
stateless). -/
theorem read_state_eq {st st1 : LinearIndexedStorage} {i : Nat}
    {buf b1 : List ℚ} {r1 : Nat}
    (h : st.read i buf = some (st1, b1, r1)) : st1 = st := by
  unfold LinearIndexedStorage.read at h
  cases h1 : st.indices_[i]? with
  | none => rw [h1] at h; simp at h
  | some off =>
    cases h2 : st.indices_[i + 1]? with
    | none => rw [h1, h2] at h; simp at h
    | some nxt =>
      rw [h1, h2] at h
      simp only [Option.some.injEq, Prod.mk.injEq] at h
      exact h.1.symm

/-- C3: For a record of true length `A = nxt - off` and a caller
buffer of capacity `L`, `read` succeeds, returns the true length `A`
regardless of truncation (so the caller detects truncation by
comparing it with `L`), and writes exactly `min A L` values: the first
`min A L` positions of the buffer receive the record's first values
and the rest of the buffer is untouched. -/
theorem claim_C3_read_postcondition :
    ∀ (st : LinearIndexedStorage) (i : Nat) (buf : List ℚ) (off nxt : Nat),
      st.indices_[i]? = some off → st.indices_[i + 1]? = some nxt →
      off ≤ nxt → nxt ≤ st.data_.length →
      ∃ out, st.read i buf = some (st, out, nxt - off) ∧
        (st.record off nxt).length = nxt - off ∧
        out.length = buf.length ∧
        out.take (min (nxt - off) buf.length)
          = (st.record off nxt).take buf.length ∧
        out.drop (min (nxt - off) buf.length)
          = buf.drop (min (nxt - off) buf.length) := by
  intro st i buf off nxt h1 h2 hle hlen
  have hrec : (st.record off nxt).length = nxt - off := by
    unfold LinearIndexedStorage.record
    rw [List.length_take, List.length_drop]
    omega
  refine ⟨writeInto (st.record off nxt) buf, ?_, hrec, ?_, ?_, ?_⟩
  · unfold LinearIndexedStorage.read
    rw [h1, h2]
    rfl
  · rw [writeInto_eq, List.length_append, List.length_take, List.length_drop,
      hrec]
    omega
  · rw [writeInto_eq]
    refine List.take_left' ?_
    rw [List.length_take, hrec, Nat.min_comm]
  · rw [writeInto_eq,
      List.drop_left' (by rw [List.length_take, hrec, Nat.min_comm]), hrec]
    rcases le_or_lt (nxt - off) buf.length with h | h
    · rw [Nat.min_eq_left h]
    · rw [List.drop_eq_nil_of_le (by omega),
        List.drop_eq_nil_of_le (by omega)]

/-- C3 witness: reading record 0 (true length 2) of a concrete
three-value storage into a buffer of capacity 1 writes one value and
returns 2. -/
theorem claim_C3_witness :
    ∃ out, LinearIndexedStorage.read ⟨[10, 20, 30], [0, 2, 3]⟩ 0 [0]
        = some (⟨[10, 20, 30], [0, 2, 3]⟩, out, 2 - 0) ∧
      ((⟨[10, 20, 30], [0, 2, 3]⟩ : LinearIndexedStorage).record 0 2).length
        = 2 - 0 ∧
      out.length = ([0] : List ℚ).length ∧
      out.take (min (2 - 0) ([0] : List ℚ).length)
        = ((⟨[10, 20, 30], [0, 2, 3]⟩ : LinearIndexedStorage).record 0 2).take
            ([0] : List ℚ).length ∧
      out.drop (min (2 - 0) ([0] : List ℚ).length)
        = ([0] : List ℚ).drop (min (2 - 0) ([0] : List ℚ).length) :=
  claim_C3_read_postcondition ⟨[10, 20, 30], [0, 2, 3]⟩ 0 [0] 0 2 rfl rfl
    (by decide) (by decide)

/-- C4: Two `read` calls with the same index and the same buffer, with
no intervening mutation of the backing storage (the second call runs
on the storage state the first call returned), write identical values
into the buffer and return the same actual length. -/
theorem claim_C4_read_deterministic :
    ∀ (st : LinearIndexedStorage) (i : Nat) (buf : List ℚ)
      (st1 st2 : LinearIndexedStorage) (b1 b2 : List ℚ) (r1 r2 : Nat),
      st.read i buf = some (st1, b1, r1) →
      st1.read i buf = some (st2, b2, r2) →
      b2 = b1 ∧ r2 = r1 := by
  intro st i buf st1 st2 b1 b2 r1 r2 h1 h2
  have hst : st1 = st := read_state_eq h1
  subst hst
  rw [h1] at h2
  simp only [Option.some.injEq, Prod.mk.injEq] at h2
  exact ⟨h2.2.1.symm, h2.2.2.symm⟩

/-- C4 witness: the determinism law at a concrete storage, index and
buffer. -/
theorem claim_C4_witness :
    ([10, 20] : List ℚ) = [10, 20] ∧ (2 : Nat) = 2 :=
  claim_C4_read_deterministic ⟨[10, 20, 30], [0, 2, 3]⟩ 0 [0, 0]
    ⟨[10, 20, 30], [0, 2, 3]⟩ ⟨[10, 20, 30], [0, 2, 3]⟩
    [10, 20] [10, 20] 2 2 rfl rfl

/-! ## Claim C5: the read cache -/

/-- A cached read never changes the wrapped reader. -/
theorem readCached_reader (c : IndexedDataReadCache) (i : Nat) :
    ((c.readCached i).1).reader_ = c.reader_ := by
  cases hm : c.memo_.lookup i <;> simp [IndexedDataReadCache.readCached, hm]

/-- A cached read never changes the configured record length. -/
theorem readCached_length (c : IndexedDataReadCache) (i : Nat) :
    ((c.readCached i).1).length_ = c.length_ := by
  cases hm : c.memo_.lookup i <;> simp [IndexedDataReadCache.readCached, hm]

/-- On a coherent cache, a cached read returns the wrapped reader's
record. -/
theorem readCached_val {c : IndexedDataReadCache} (hc : c.Coherent) (i : Nat) :
    (c.readCached i).2 = c.reader_ i := by
  cases hm : c.memo_.lookup i with
  | some v => simpa [IndexedDataReadCache.readCached, hm] using hc i v hm
  | none => simp [IndexedDataReadCache.readCached, hm]

/-- A cached read preserves cache coherence. -/
theorem readCached_coherent {c : IndexedDataReadCache} (hc : c.Coherent)
    (i : Nat) : ((c.readCached i).1).Coherent := by
  cases hm : c.memo_.lookup i with
  | some v => simpa [IndexedDataReadCache.readCached, hm] using hc
  | none =>
    intro j v hj
    simp only [IndexedDataReadCache.readCached, hm, List.lookup_cons] at hj ⊢
    by_cases hji : j = i
    · subst hji
      have hb : (j == j) = true := by simp
      rw [hb] at hj
      exact (Option.some.inj hj).symm
    · have hb : (j == i) = false := by simp [hji]
      rw [hb] at hj
      exact hc j v hj

/-- Running any sequence of cached reads never changes the wrapped
reader. -/
theorem runReads_reader (ops : List Nat) :
    ∀ c : IndexedDataReadCache, (c.runReads ops).reader_ = c.reader_ := by
  induction ops with
  | nil => intro c; rfl
  | cons i is ih =>
    intro c
    show (((c.readCached i).1).runReads is).reader_ = c.reader_
    rw [ih, readCached_reader]

/-- Running any sequence of cached reads never changes the configured
record length. -/
theorem runReads_length (ops : List Nat) :
    ∀ c : IndexedDataReadCache, (c.runReads ops).length_ = c.length_ := by
  induction ops with
  | nil => intro c; rfl
  | cons i is ih =>
    intro c
    show (((c.readCached i).1).runReads is).length_ = c.length_
    rw [ih, readCached_length]

/-- Running any sequence of cached reads preserves coherence. -/
theorem runReads_coherent (ops : List Nat) :
    ∀ c : IndexedDataReadCache, c.Coherent → (c.runReads ops).Coherent := by
  induction ops with
  | nil => intro c hc; exact hc
  | cons i is ih =>
    intro c hc
    exact ih _ (readCached_coherent hc i)

/-- C5: For a coherent cache wrapping a reader of uniform record
length `L`, `data_length()` still returns the configured `L` after any
sequence of cached reads, and a first read for index `i` followed — in
an arbitrarily evolved cache state — by a later read for the same `i`
returns identical data, of length `L` (memoization correctness). -/
theorem claim_C5_cache_memoization :
    ∀ (c : IndexedDataReadCache) (L i : Nat) (ops : List Nat),
      c.Coherent → c.length_ = L → (∀ j, (c.reader_ j).length = L) →
      ((c.readCached i).1.runReads ops).data_length = L ∧
      (((c.readCached i).1.runReads ops).readCached i).2 = (c.readCached i).2 ∧
      ((c.readCached i).2).length = L := by
  intro c L i ops hc hL hU
  have hc1 : ((c.readCached i).1).Coherent := readCached_coherent hc i
  have hc2 : ((c.readCached i).1.runReads ops).Coherent :=
    runReads_coherent ops _ hc1
  refine ⟨?_, ?_, ?_⟩
  · show ((c.readCached i).1.runReads ops).length_ = L
    rw [runReads_length, readCached_length, hL]
  · rw [readCached_val hc2 i, readCached_val hc i, runReads_reader,
      readCached_reader]
  · rw [readCached_val hc i]
    exact hU i

/-- C5 witness: a concrete cache of record length 1 over the reader
`j ↦ [j]`, first read at index 5, then reads at 0 and 5. -/
theorem claim_C5_witness :
    (((⟨fun j => [(j : ℚ)], 1, []⟩ :
        IndexedDataReadCache).readCached 5).1.runReads [0, 5]).data_length = 1 ∧
    ((((⟨fun j => [(j : ℚ)], 1, []⟩ :
        IndexedDataReadCache).readCached 5).1.runReads [0, 5]).readCached 5).2
      = ((⟨fun j => [(j : ℚ)], 1, []⟩ :
        IndexedDataReadCache).readCached 5).2 ∧
    (((⟨fun j => [(j : ℚ)], 1, []⟩ :
        IndexedDataReadCache).readCached 5).2).length = 1 :=
  claim_C5_cache_memoization ⟨fun j => [(j : ℚ)], 1, []⟩ 1 5 [0, 5]
    (fun j v h => by simp at h) rfl (fun j => rfl)

/-! ## Claim C6: Concat then Slice round-trip -/

/-- The length of an in-range chunk. -/
theorem length_chunk_of_le {α : Type} (l : List α) (s n : Nat)
    (h : n * s + s ≤ l.length) : (chunk l s n).length = s := by
  unfold chunk
  rw [List.length_take, List.length_drop]
  omega

/-- Splitting a flattening of rows at the rows' lengths recovers the
rows. -/
theorem splitSizes_map_flatten (g : List ℚ × Nat → List ℚ) :
    ∀ pairs : List (List ℚ × Nat),
      (∀ p ∈ pairs, (g p).length = p.2) →
      splitSizes (pairs.map Prod.snd) ((pairs.map g).flatten) = pairs.map g := by
  intro pairs
  induction pairs with
  | nil => intro h; simp [splitSizes]
  | cons p ps ih =>
    intro h
    simp only [List.map_cons, List.flatten_cons]
    unfold splitSizes
    rw [List.take_left' (h p (by simp)), List.drop_left' (h p (by simp)),
      ih (fun q hq => h q (by simp [hq]))]

/-- Variant of `splitSizes_map_flatten` taking the size list as a
separate argument equal to the pairs' second components. -/
theorem splitSizes_flatten_of_snd (g : List ℚ × Nat → List ℚ)
    (pairs : List (List ℚ × Nat)) (sizes : List Nat)
    (hs : pairs.map Prod.snd = sizes)
    (h : ∀ p ∈ pairs, (g p).length = p.2) :
    splitSizes sizes ((pairs.map g).flatten) = pairs.map g := by
  subst hs
  exact splitSizes_map_flatten g pairs h

/-- Mapping positional default-lookup over the index range of a list
reproduces the list. -/
theorem map_range_getD {α : Type} (l : List α) (d : α) :
    (List.range l.length).map (fun k => l.getD k d) = l := by
  induction l with
  | nil => simp
  | cons x xs ih =>
    rw [List.length_cons, List.range_succ_eq_map, List.map_cons, List.map_map,
      List.getD_cons_zero]
    have htail : List.map ((fun k => (x :: xs).getD k d) ∘ Nat.succ)
        (List.range xs.length) = xs := by
      calc List.map ((fun k => (x :: xs).getD k d) ∘ Nat.succ)
            (List.range xs.length)
          = List.map (fun k => xs.getD k d) (List.range xs.length) :=
            List.map_congr_left (fun k hk => List.getD_cons_succ)
        _ = xs := ih
    rw [htail]

/-- One outer chunk of a `genConcat` output: the concatenation, in
listed order, of all the inputs' chunks for that outer index. -/
theorem chunk_genConcat (o : Nat) (datas : List (List ℚ)) (sizes : List Nat)
    (hlen : datas.length = sizes.length)
    (hl : ∀ p ∈ datas.zip sizes, p.1.length = o * p.2) :
    ∀ n < o, chunk (genConcat o datas sizes) sizes.sum n
      = (datas.zip sizes).flatMap (fun p => chunk p.1 p.2 n) := by
  have hsnd : (datas.zip sizes).map Prod.snd = sizes :=
    List.map_snd_zip datas sizes (by omega)
  refine chunk_flatMap_range _ sizes.sum o (fun n hn => ?_)
  rw [List.length_flatMap]
  have hmap : List.map (List.length ∘ fun p => chunk p.1 p.2 n)
      (datas.zip sizes) = (datas.zip sizes).map Prod.snd := by
    refine List.map_congr_left (fun p hp => ?_)
    have hple := hl p hp
    refine length_chunk_of_le p.1 p.2 n ?_
    have h2 : n * p.2 + p.2 ≤ o * p.2 := by
      have := Nat.mul_le_mul_right p.2 hn
      rw [Nat.succ_mul] at this
      exact this
    omega
  rw [hmap, hsnd]

/-- Slicing a `genConcat` output at the same outer count and sizes
reconstructs the original data lists (round-trip law for the generic
copy loops). -/
theorem genSlice_genConcat (o : Nat) (datas : List (List ℚ)) (sizes : List Nat)
    (hlen : datas.length = sizes.length)
    (hl : ∀ p ∈ datas.zip sizes, p.1.length = o * p.2) :
    genSlice o sizes (genConcat o datas sizes) = datas := by
  have hzlen : (datas.zip sizes).length = sizes.length := by
    rw [List.length_zip]; omega
  have hsnd : (datas.zip sizes).map Prod.snd = sizes :=
    List.map_snd_zip datas sizes (by omega)
  unfold genSlice
  have hstep : ∀ k < sizes.length,
      (List.range o).flatMap
        (fun n => (splitSizes sizes
          (chunk (genConcat o datas sizes) sizes.sum n)).getD k [])
      = datas.getD k [] := by
    intro k hk
    have hkz : k < (datas.zip sizes).length := by omega
    have hkd : k < datas.length := by omega
    have hpk : (datas.zip sizes)[k] = (datas[k], sizes[k]) := List.getElem_zip
    have hinner : ∀ n < o,
        (splitSizes sizes
          (chunk (genConcat o datas sizes) sizes.sum n)).getD k []
        = chunk (datas.getD k []) (sizes.getD k 0) n := by
      intro n hn
      rw [chunk_genConcat o datas sizes hlen hl n hn]
      rw [List.flatMap_def,
        splitSizes_flatten_of_snd _ (datas.zip sizes) sizes hsnd (fun p hp => by
          refine length_chunk_of_le p.1 p.2 n ?_
          have hple := hl p hp
          have h2 : n * p.2 + p.2 ≤ o * p.2 := by
            have := Nat.mul_le_mul_right p.2 hn
            rw [Nat.succ_mul] at this
            exact this
          omega)]
      have hkm : k < ((datas.zip sizes).map
          (fun p => chunk p.1 p.2 n)).length := by
        rw [List.length_map]; omega
      rw [List.getD_eq_getElem _ _ hkm, List.getElem_map, hpk,
        List.getD_eq_getElem _ _ hkd,
        List.getD_eq_getElem _ _ (show k < sizes.length from hk)]
    have hcongr : (List.range o).flatMap
        (fun n => (splitSizes sizes
          (chunk (genConcat o datas sizes) sizes.sum n)).getD k [])
        = (List.range o).flatMap
          (fun n => chunk (datas.getD k []) (sizes.getD k 0) n) := by
      rw [List.flatMap_def, List.flatMap_def]
      congr 1
      exact List.map_congr_left (fun n hn => hinner n (List.mem_range.mp hn))
    rw [hcongr]
    refine flatMap_chunk_range _ _ o ?_
    have hmem : (datas[k], sizes[k]) ∈ datas.zip sizes := by
      rw [← hpk]; exact List.getElem_mem hkz
    have := hl _ hmem
    rw [List.getD_eq_getElem _ _ hkd,
      List.getD_eq_getElem _ _ (show k < sizes.length from hk)]
    exact this
  calc (List.range sizes.length).map
        (fun k => (List.range o).flatMap
          (fun n => (splitSizes sizes
            (chunk (genConcat o datas sizes) sizes.sum n)).getD k []))
      = (List.range sizes.length).map (fun k => datas.getD k []) := by
        exact List.map_congr_left (fun k hk => hstep k (List.mem_range.mp hk))
    _ = datas := by rw [← hlen]; exact map_range_getD datas []

/-- C6: For every nonempty list of blobs whose non-concatenated
dimensions match, applying Concat forward along a dimension
(`d = 0` or `d = 1`) and then Slice forward along the same dimension
with cut points at the concatenation offsets (i.e. per-output extents
equal to the inputs' extents along that dimension) reconstructs
exactly the original blobs. -/
theorem claim_C6_concat_slice_round_trip :
    ∀ (d : Nat) (b0 : DataBlob) (bs : List DataBlob),
      (d = 0 ∨ d = 1) →
      (∀ b ∈ b0 :: bs, b.data.length = b.count) →
      (∀ b ∈ b0 :: bs, b.height = b0.height ∧ b.width = b0.width) →
      (d = 0 → ∀ b ∈ b0 :: bs, b.channels = b0.channels) →
      (d = 1 → ∀ b ∈ b0 :: bs, b.num = b0.num) →
      SliceLayer.Forward_cpu d
        ((b0 :: bs).map (fun b => if d = 0 then b.num else b.channels))
        (ConcatLayer.Forward_cpu d (b0 :: bs)) = b0 :: bs := by
  intro d b0 bs hd hcount hdims hch hnum
  rcases hd with hd | hd
  · subst hd
    have hch' := hch rfl
    have hC : ConcatLayer.Forward_cpu 0 (b0 :: bs)
        = { num := ((b0 :: bs).map DataBlob.num).sum
            channels := b0.channels, height := b0.height, width := b0.width
            data := genConcat 1 ((b0 :: bs).map DataBlob.data)
              ((b0 :: bs).map
                (fun b => b.num * (b.channels * b.height * b.width))) } := by
      simp [ConcatLayer.Forward_cpu]
    have hsz : (b0 :: bs).map
          (fun b => b.num * (b.channels * b.height * b.width))
        = ((b0 :: bs).map (fun b => b.num)).map
            (fun e => e * (b0.channels * b0.height * b0.width)) := by
      rw [List.map_map]
      refine List.map_congr_left (fun b hb => ?_)
      obtain ⟨hh, hw⟩ := hdims b hb
      rw [hch' b hb, hh, hw]
      rfl
    have hslice : genSlice 1
        (((b0 :: bs).map (fun b => b.num)).map
          (fun e => e * (b0.channels * b0.height * b0.width)))
        (genConcat 1 ((b0 :: bs).map DataBlob.data)
          ((b0 :: bs).map
            (fun b => b.num * (b.channels * b.height * b.width))))
        = (b0 :: bs).map DataBlob.data := by
      rw [hsz]
      refine genSlice_genConcat 1 _ _ (by rw [List.length_map, List.length_map,
        List.length_map]) ?_
      intro p hp
      rw [List.map_map, List.zip_map'] at hp
      obtain ⟨b, hb, hpb⟩ := List.mem_map.mp hp
      subst hpb
      obtain ⟨hh, hw⟩ := hdims b hb
      simp only [Function.comp_apply]
      rw [hcount b hb]
      unfold DataBlob.count
      rw [hch' b hb, hh, hw]
      ring
    have hext : ((fun b => if (0 : Nat) = 0 then b.num else b.channels) :
        DataBlob → Nat) = fun b => b.num := funext fun b => if_pos rfl
    rw [hext, hC]
    simp only [SliceLayer.Forward_cpu]
    rw [if_pos trivial]
    rw [hslice, List.zip_map', List.map_map]
    refine List.map_congr_left ?_ |>.trans (List.map_id _)
    intro b hb
    obtain ⟨hh, hw⟩ := hdims b hb
    have hc := hch' b hb
    cases b
    simp_all
  · subst hd
    have hnum' := hnum rfl
    have hC : ConcatLayer.Forward_cpu 1 (b0 :: bs)
        = { num := b0.num
            channels := ((b0 :: bs).map DataBlob.channels).sum
            height := b0.height, width := b0.width
            data := genConcat b0.num ((b0 :: bs).map DataBlob.data)
              ((b0 :: bs).map
                (fun b => b.channels * b.height * b.width)) } := by
      simp [ConcatLayer.Forward_cpu]
    have hsz : (b0 :: bs).map (fun b => b.channels * b.height * b.width)
        = ((b0 :: bs).map (fun b => b.channels)).map
            (fun e => e * (b0.height * b0.width)) := by
      rw [List.map_map]
      refine List.map_congr_left (fun b hb => ?_)
      obtain ⟨hh, hw⟩ := hdims b hb
      simp only [Function.comp_apply]
      rw [hh, hw]
      ring
    have hslice : genSlice b0.num
        (((b0 :: bs).map (fun b => b.channels)).map
          (fun e => e * (b0.height * b0.width)))
        (genConcat b0.num ((b0 :: bs).map DataBlob.data)
          ((b0 :: bs).map (fun b => b.channels * b.height * b.width)))
        = (b0 :: bs).map DataBlob.data := by
      rw [hsz]
      refine genSlice_genConcat b0.num _ _ (by rw [List.length_map,
        List.length_map, List.length_map]) ?_
      intro p hp
      rw [List.map_map, List.zip_map'] at hp
      obtain ⟨b, hb, hpb⟩ := List.mem_map.mp hp
      subst hpb
      obtain ⟨hh, hw⟩ := hdims b hb
      simp only [Function.comp_apply]
      rw [hcount b hb]
      unfold DataBlob.count
      rw [hnum' b hb, hh, hw]
      ring
    have hext : ((fun b => if (1 : Nat) = 0 then b.num else b.channels) :
        DataBlob → Nat) = fun b => b.channels :=
      funext fun b => if_neg (by decide)
    rw [hext, hC]
    simp only [SliceLayer.Forward_cpu]
    rw [if_neg (show ¬ (1 : Nat) = 0 by decide)]
    rw [hslice, List.zip_map', List.map_map]
    refine List.map_congr_left ?_ |>.trans (List.map_id _)
    intro b hb
    obtain ⟨hh, hw⟩ := hdims b hb
    have hn := hnum' b hb
    cases b
    simp_all

/-- C6 witness: the round trip at `d = 1` on two concrete blobs of
shapes `(2,1,1,1)` and `(2,2,1,1)`. -/
theorem claim_C6_witness :
    SliceLayer.Forward_cpu 1
      (([⟨2, 1, 1, 1, [1, 2]⟩, ⟨2, 2, 1, 1, [3, 4, 5, 6]⟩] :
          List DataBlob).map (fun b => if 1 = 0 then b.num else b.channels))
      (ConcatLayer.Forward_cpu 1
        [⟨2, 1, 1, 1, [1, 2]⟩, ⟨2, 2, 1, 1, [3, 4, 5, 6]⟩])
      = [⟨2, 1, 1, 1, [1, 2]⟩, ⟨2, 2, 1, 1, [3, 4, 5, 6]⟩] :=
  claim_C6_concat_slice_round_trip 1 ⟨2, 1, 1, 1, [1, 2]⟩
    [⟨2, 2, 1, 1, [3, 4, 5, 6]⟩] (Or.inr rfl)
    (by decide) (by decide) (fun h => by cases h) (by decide)

/-! ## Claim C9: ArgMax forward -/

/-- The ArgMax comparison is transitive. -/
theorem keyLe_trans : ∀ a b c : ℚ × Nat,
    ArgMaxLayer.keyLe a b = true → ArgMaxLayer.keyLe b c = true →
    ArgMaxLayer.keyLe a c = true := by
  intro a b c hab hbc
  simp only [ArgMaxLayer.keyLe, decide_eq_true_eq] at hab hbc ⊢
  rcases hab with h | ⟨h1, h2⟩ <;> rcases hbc with h' | ⟨h1', h2'⟩
  · exact Or.inl (lt_trans h' h)
  · exact Or.inl (h1' ▸ h)
  · exact Or.inl (by rw [h1]; exact h')
  · exact Or.inr ⟨h1.trans h1', le_trans h2 h2'⟩

/-- The ArgMax comparison is total. -/
theorem keyLe_total : ∀ a b : ℚ × Nat,
    (ArgMaxLayer.keyLe a b || ArgMaxLayer.keyLe b a) = true := by
  intro a b
  simp only [ArgMaxLayer.keyLe, Bool.or_eq_true, decide_eq_true_eq]
  rcases lt_trichotomy a.1 b.1 with h | h | h
  · exact Or.inr (Or.inl h)
  · rcases le_total a.2 b.2 with h2 | h2
    · exact Or.inl (Or.inr ⟨h, h2⟩)
    · exact Or.inr (Or.inr ⟨h.symm, h2⟩)
  · exact Or.inl (Or.inl h)

/-- Theorem: `topKSelect` satisfies the spec's top-K selection contract: it
emits exactly `k` genuine (value, index) pairs of the sample, in
descending value order with ties broken by first-seen index, and they
are the `k` largest. -/
theorem topKSelect_spec (k : Nat) (xs : List ℚ) (hk : k ≤ xs.length) :
    ArgMaxLayer.TopKSpec k xs (ArgMaxLayer.topKSelect k xs) := by
  have hlp : (xs.enum.map (fun p => (p.2, p.1))).length = xs.length := by
    rw [List.length_map, List.enum_length]
  have hperm : ((xs.enum.map (fun p => (p.2, p.1))).mergeSort
      ArgMaxLayer.keyLe).Perm (xs.enum.map (fun p => (p.2, p.1))) :=
    List.mergeSort_perm _ _
  have hsortlen : ((xs.enum.map (fun p => (p.2, p.1))).mergeSort
      ArgMaxLayer.keyLe).length = xs.length := by
    rw [List.length_mergeSort, hlp]
  have hsorted : List.Pairwise (fun a b => ArgMaxLayer.keyLe a b = true)
      ((xs.enum.map (fun p => (p.2, p.1))).mergeSort ArgMaxLayer.keyLe) :=
    List.sorted_mergeSort keyLe_trans keyLe_total _
  have hmem : ∀ p ∈ ArgMaxLayer.topKSelect k xs,
      p.2 < xs.length ∧ xs[p.2]? = some p.1 := by
    intro p hp
    have hp2 : p ∈ (xs.enum.map (fun p => (p.2, p.1))).mergeSort
        ArgMaxLayer.keyLe := List.Sublist.mem hp (List.take_sublist _ _)
    have hp3 : p ∈ xs.enum.map (fun p => (p.2, p.1)) :=
      hperm.mem_iff.mp hp2
    obtain ⟨q, hq, hqp⟩ := List.mem_map.mp hp3
    have hxq : xs[q.1]? = some q.2 := List.mem_enum_iff_getElem?.mp hq
    have h1 : p.2 = q.1 := by rw [← hqp]
    have h2 : p.1 = q.2 := by rw [← hqp]
    refine ⟨?_, by rw [h1, h2]; exact hxq⟩
    rw [h1]
    obtain ⟨hlt, -⟩ := List.getElem?_eq_some_iff.mp hxq
    exact hlt
  have hnodup : ((ArgMaxLayer.topKSelect k xs).map Prod.snd).Nodup := by
    have hnd0 : ((xs.enum.map (fun p => (p.2, p.1))).map Prod.snd).Nodup := by
      rw [List.map_map]
      have : (Prod.snd ∘ fun p : Nat × ℚ => (p.2, p.1)) = Prod.fst := rfl
      rw [this, List.enum_map_fst]
      exact List.nodup_range xs.length
    have hnd1 : (((xs.enum.map (fun p => (p.2, p.1))).mergeSort
        ArgMaxLayer.keyLe).map Prod.snd).Nodup :=
      (hperm.map Prod.snd).symm.nodup hnd0
    exact List.Sublist.nodup
      (List.Sublist.map Prod.snd (List.take_sublist _ _)) hnd1
  have hpw : List.Pairwise (fun a b : ℚ × Nat =>
      ArgMaxLayer.keyLe a b = true ∧ a.2 ≠ b.2) (ArgMaxLayer.topKSelect k xs) := by
    refine List.Pairwise.and ?_ ?_
    · exact List.Pairwise.sublist (List.take_sublist _ _) hsorted
    · exact List.pairwise_map.mp hnodup
  refine ⟨?_, hmem, ?_, ?_⟩
  · unfold ArgMaxLayer.topKSelect
    rw [List.length_take, hsortlen]
    omega
  · refine hpw.imp ?_
    intro a b hab
    obtain ⟨hle, hne⟩ := hab
    simp only [ArgMaxLayer.keyLe, decide_eq_true_eq] at hle
    rcases hle with h | ⟨h1, h2⟩
    · exact Or.inl h
    · exact Or.inr ⟨h1, lt_of_le_of_ne h2 hne⟩
  · refine ⟨((xs.enum.map (fun p => (p.2, p.1))).mergeSort
      ArgMaxLayer.keyLe).drop k, ?_, ?_⟩
    · show ((((xs.enum.map (fun p => (p.2, p.1))).mergeSort
        ArgMaxLayer.keyLe).take k) ++ _).Perm _
      rw [List.take_append_drop]
      exact hperm
    · intro a ha b hb
      have hsplit := (List.take_append_drop k
        ((xs.enum.map (fun p : Nat × ℚ => (p.2, p.1))).mergeSort
          ArgMaxLayer.keyLe)).symm ▸ hsorted
      have hdom := (List.pairwise_append.mp hsplit).2.2 a ha b hb
      simp only [ArgMaxLayer.keyLe, decide_eq_true_eq] at hdom
      exact hdom

/-- C9: For every input blob of shape `(N,C,H,W)` with `1 ≤ K ≤ CHW`,
ArgMax forward produces an output of shape `(N,1,K,1)` — `(N,2,K,1)`
when `out_max_val` is set — whose row `n` holds the indices (followed,
when `out_max_val` is set, by the values) of the `K` largest values of
sample `n` across all non-sample dimensions, in descending value order
with ties broken by first-seen index. -/
theorem claim_C9_argmax_forward :
    ∀ (out_max_val : Bool) (K : Nat) (bottom : DataBlob),
      bottom.data.length
        = bottom.num * (bottom.channels * bottom.height * bottom.width) →
      1 ≤ K →
      K ≤ bottom.channels * bottom.height * bottom.width →
      ((ArgMaxLayer.Forward_cpu out_max_val K bottom).num = bottom.num ∧
        (ArgMaxLayer.Forward_cpu out_max_val K bottom).channels
          = (if out_max_val then 2 else 1) ∧
        (ArgMaxLayer.Forward_cpu out_max_val K bottom).height = K ∧
        (ArgMaxLayer.Forward_cpu out_max_val K bottom).width = 1) ∧
      ∀ n < bottom.num,
        chunk (ArgMaxLayer.Forward_cpu out_max_val K bottom).data
            ((if out_max_val then 2 else 1) * K) n
          = (ArgMaxLayer.topKSelect K (chunk bottom.data
                (bottom.channels * bottom.height * bottom.width) n)).map
              (fun p => (p.2 : ℚ)) ++
            (if out_max_val then
              (ArgMaxLayer.topKSelect K (chunk bottom.data
                (bottom.channels * bottom.height * bottom.width) n)).map
                (fun p => p.1)
            else []) ∧
        ArgMaxLayer.TopKSpec K
          (chunk bottom.data (bottom.channels * bottom.height * bottom.width) n)
          (ArgMaxLayer.topKSelect K (chunk bottom.data
            (bottom.channels * bottom.height * bottom.width) n)) := by
  intro omv K bottom hlen hK1 hKdim
  refine ⟨⟨rfl, rfl, rfl, rfl⟩, ?_⟩
  intro n hn
  have hsample : ∀ m, m < bottom.num →
      (chunk bottom.data
        (bottom.channels * bottom.height * bottom.width) m).length
      = bottom.channels * bottom.height * bottom.width := by
    intro m hm
    refine length_chunk_of_le _ _ _ ?_
    rw [hlen]
    have := Nat.mul_le_mul_right
      (bottom.channels * bottom.height * bottom.width) hm
    rw [Nat.succ_mul] at this
    exact this
  have hspec : ∀ m, m < bottom.num →
      ArgMaxLayer.TopKSpec K
        (chunk bottom.data
          (bottom.channels * bottom.height * bottom.width) m)
        (ArgMaxLayer.topKSelect K (chunk bottom.data
          (bottom.channels * bottom.height * bottom.width) m)) := by
    intro m hm
    refine topKSelect_spec K _ ?_
    rw [hsample m hm]
    exact hKdim
  have hdata : (ArgMaxLayer.Forward_cpu omv K bottom).data
      = (List.range bottom.num).flatMap
          (fun m => (ArgMaxLayer.topKSelect K (chunk bottom.data
              (bottom.channels * bottom.height * bottom.width) m)).map
              (fun p => (p.2 : ℚ)) ++
            (if omv then
              (ArgMaxLayer.topKSelect K (chunk bottom.data
                (bottom.channels * bottom.height * bottom.width) m)).map
                (fun p => p.1)
            else [])) := rfl
  refine ⟨?_, hspec n hn⟩
  rw [hdata]
  refine chunk_flatMap_range _ _ bottom.num ?_ n hn
  intro m hm
  have hself := (hspec m hm).1
  rw [List.length_append, List.length_map, hself]
  cases omv
  · simp
  · simp [two_mul, List.length_map, hself]

/-- C9 witness: ArgMax forward with `out_max_val` set and `K = 1` on a
concrete blob of shape `(1,2,1,1)`. -/
theorem claim_C9_witness :
    ((ArgMaxLayer.Forward_cpu true 1 ⟨1, 2, 1, 1, [3, 7]⟩).num = 1 ∧
      (ArgMaxLayer.Forward_cpu true 1 ⟨1, 2, 1, 1, [3, 7]⟩).channels
        = (if true then 2 else 1) ∧
      (ArgMaxLayer.Forward_cpu true 1 ⟨1, 2, 1, 1, [3, 7]⟩).height = 1 ∧
      (ArgMaxLayer.Forward_cpu true 1 ⟨1, 2, 1, 1, [3, 7]⟩).width = 1) ∧
    ∀ n < 1,
      chunk (ArgMaxLayer.Forward_cpu true 1 ⟨1, 2, 1, 1, [3, 7]⟩).data
          ((if true then 2 else 1) * 1) n
        = (ArgMaxLayer.topKSelect 1
              (chunk ([3, 7] : List ℚ) (2 * 1 * 1) n)).map
            (fun p => (p.2 : ℚ)) ++
          (if true then
            (ArgMaxLayer.topKSelect 1
              (chunk ([3, 7] : List ℚ) (2 * 1 * 1) n)).map (fun p => p.1)
          else []) ∧
      ArgMaxLayer.TopKSpec 1 (chunk ([3, 7] : List ℚ) (2 * 1 * 1) n)
        (ArgMaxLayer.topKSelect 1 (chunk ([3, 7] : List ℚ) (2 * 1 * 1) n)) :=
  claim_C9_argmax_forward true 1 ⟨1, 2, 1, 1, [3, 7]⟩ rfl (by decide) (by decide)

/-! ## Claim C7: Softmax -/

/-- Shifting every element by a constant shifts the running maximum by
the same constant. -/
theorem foldl_max_map_add (l : List ℝ) :
    ∀ (a c : ℝ), (l.map (fun v => v + c)).foldl max (a + c)
      = l.foldl max a + c := by
  induction l with
  | nil => intro a c; rfl
  | cons x xs ih =>
    intro a c
    show (xs.map (fun v => v + c)).foldl max (max (a + c) (x + c))
      = xs.foldl max (max a x) + c
    rw [max_add_add_right, ih]

/-- Unfolding of `softmaxSample` on a nonempty sample. -/
theorem softmaxSample_cons (x : ℝ) (rest : List ℝ) :
    SoftmaxLayer.softmaxSample (x :: rest)
      = ((x :: rest).map (fun v => Real.exp (v - rest.foldl max x))).map
          (fun v => v /
            ((x :: rest).map
              (fun v => Real.exp (v - rest.foldl max x))).sum) := rfl

/-- The length of a softmax output equals the length of its input. -/
theorem length_softmaxSample (xs : List ℝ) :
    (SoftmaxLayer.softmaxSample xs).length = xs.length := by
  cases xs with
  | nil => rfl
  | cons x rest => rw [softmaxSample_cons, List.length_map, List.length_map]

/-- The softmax numeric rule on a nonempty sample: the outputs sum to
1, lie in `[0, 1]`, and are invariant under adding a constant to every
input of the sample. -/
theorem softmaxSample_props (x : ℝ) (rest : List ℝ) (c : ℝ) :
    (SoftmaxLayer.softmaxSample (x :: rest)).sum = 1 ∧
    (∀ y ∈ SoftmaxLayer.softmaxSample (x :: rest), 0 ≤ y ∧ y ≤ 1) ∧
    SoftmaxLayer.softmaxSample ((x :: rest).map (fun v => v + c))
      = SoftmaxLayer.softmaxSample (x :: rest) := by
  have hpos : ∀ y ∈ (x :: rest).map
      (fun v => Real.exp (v - rest.foldl max x)), 0 < y := by
    intro y hy
    obtain ⟨v, hv, hvy⟩ := List.mem_map.mp hy
    rw [← hvy]
    exact Real.exp_pos _
  have hne : (x :: rest).map (fun v => Real.exp (v - rest.foldl max x)) ≠ [] := by
    simp
  have hs : 0 < ((x :: rest).map
      (fun v => Real.exp (v - rest.foldl max x))).sum :=
    List.sum_pos _ hpos hne
  refine ⟨?_, ?_, ?_⟩
  · rw [softmaxSample_cons]
    have hdiv : ∀ (l : List ℝ) (r : ℝ), (l.map (fun v => v / r)).sum
        = l.sum * r⁻¹ := by
      intro l r
      calc (l.map (fun v => v / r)).sum
          = (l.map (fun v => v * r⁻¹)).sum := by
            refine congrArg List.sum (List.map_congr_left (fun v hv => ?_))
            rw [div_eq_mul_inv]
        _ = (l.map (fun v => v)).sum * r⁻¹ := List.sum_map_mul_right _ _ _
        _ = l.sum * r⁻¹ := by rw [List.map_id']
    rw [hdiv]
    exact mul_inv_cancel₀ (ne_of_gt hs)
  · rw [softmaxSample_cons]
    intro y hy
    obtain ⟨v, hv, hvy⟩ := List.mem_map.mp hy
    have hv0 : 0 < v := hpos v hv
    have hvle : v ≤ ((x :: rest).map
        (fun v => Real.exp (v - rest.foldl max x))).sum :=
      List.single_le_sum (fun z hz => le_of_lt (hpos z hz)) v hv
    rw [← hvy]
    exact ⟨div_nonneg (le_of_lt hv0) (le_of_lt hs), (div_le_one hs).mpr hvle⟩
  · show SoftmaxLayer.softmaxSample ((x + c) :: rest.map (fun v => v + c))
      = SoftmaxLayer.softmaxSample (x :: rest)
    rw [softmaxSample_cons, softmaxSample_cons]
    have hm : (rest.map (fun v => v + c)).foldl max (x + c)
        = rest.foldl max x + c := foldl_max_map_add rest x c
    have he : ((x + c) :: rest.map (fun v => v + c)).map
        (fun v => Real.exp (v - (rest.map (fun v => v + c)).foldl max (x + c)))
        = (x :: rest).map (fun v => Real.exp (v - rest.foldl max x)) := by
      rw [hm]
      show Real.exp (x + c - (rest.foldl max x + c)) ::
          (rest.map (fun v => v + c)).map
            (fun v => Real.exp (v - (rest.foldl max x + c)))
        = Real.exp (x - rest.foldl max x) :: rest.map
            (fun v => Real.exp (v - rest.foldl max x))
      rw [List.map_map]
      congr 1
      · congr 1
        ring
      · refine List.map_congr_left (fun v hv => ?_)
        show Real.exp (v + c - (rest.foldl max x + c))
          = Real.exp (v - rest.foldl max x)
        congr 1
        ring
    rw [he]

/-- C7: For every real input blob, every sample of the Softmax forward
output equals the per-sample softmax of the corresponding input
sample, its values sum to 1 and lie in `[0, 1]`, and the per-sample
softmax is unchanged when the same constant is added to all of that
sample's input values. -/
theorem claim_C7_softmax_forward :
    ∀ (b : RDataBlob) (n : Nat) (c : ℝ),
      b.data.length = b.num * (b.channels * b.height * b.width) →
      1 ≤ b.channels * b.height * b.width →
      n < b.num →
      chunk (SoftmaxLayer.Forward_cpu b).data
          (b.channels * b.height * b.width) n
        = SoftmaxLayer.softmaxSample
            (chunk b.data (b.channels * b.height * b.width) n) ∧
      (SoftmaxLayer.softmaxSample
          (chunk b.data (b.channels * b.height * b.width) n)).sum = 1 ∧
      (∀ y ∈ SoftmaxLayer.softmaxSample
          (chunk b.data (b.channels * b.height * b.width) n),
        0 ≤ y ∧ y ≤ 1) ∧
      SoftmaxLayer.softmaxSample
          ((chunk b.data (b.channels * b.height * b.width) n).map
            (fun v => v + c))
        = SoftmaxLayer.softmaxSample
            (chunk b.data (b.channels * b.height * b.width) n) := by
  intro b n c hlen hdim hn
  have hsample : ∀ m, m < b.num →
      (chunk b.data (b.channels * b.height * b.width) m).length
        = b.channels * b.height * b.width := by
    intro m hm
    refine length_chunk_of_le _ _ _ ?_
    rw [hlen]
    have := Nat.mul_le_mul_right (b.channels * b.height * b.width) hm
    rw [Nat.succ_mul] at this
    exact this
  have hdata : (SoftmaxLayer.Forward_cpu b).data
      = (List.range b.num).flatMap
          (fun m => SoftmaxLayer.softmaxSample
            (chunk b.data (b.channels * b.height * b.width) m)) := rfl
  have hchunk : chunk (SoftmaxLayer.Forward_cpu b).data
      (b.channels * b.height * b.width) n
      = SoftmaxLayer.softmaxSample
          (chunk b.data (b.channels * b.height * b.width) n) := by
    rw [hdata]
    refine chunk_flatMap_range _ _ b.num (fun m hm => ?_) n hn
    rw [length_softmaxSample]
    exact hsample m hm
  have hlen_n : 1 ≤ (chunk b.data (b.channels * b.height * b.width) n).length := by
    rw [hsample n hn]
    exact hdim
  rcases hxs : chunk b.data (b.channels * b.height * b.width) n with _ | ⟨x, rest⟩
  · rw [hxs] at hlen_n
    simp at hlen_n
  · rw [hxs] at hchunk
    obtain ⟨h1, h2, h3⟩ := softmaxSample_props x rest c
    exact ⟨hchunk, h1, h2, h3⟩

/-- C7 witness: the softmax properties at the concrete blob of shape
`(1,2,1,1)` with data `[0, 1]` and shift constant `5`. -/
theorem claim_C7_witness :
    chunk (SoftmaxLayer.Forward_cpu ⟨1, 2, 1, 1, [0, 1]⟩).data (2 * 1 * 1) 0
      = SoftmaxLayer.softmaxSample (chunk ([0, 1] : List ℝ) (2 * 1 * 1) 0) ∧
    (SoftmaxLayer.softmaxSample (chunk ([0, 1] : List ℝ) (2 * 1 * 1) 0)).sum
      = 1 ∧
    (∀ y ∈ SoftmaxLayer.softmaxSample (chunk ([0, 1] : List ℝ) (2 * 1 * 1) 0),
      0 ≤ y ∧ y ≤ 1) ∧
    SoftmaxLayer.softmaxSample
        ((chunk ([0, 1] : List ℝ) (2 * 1 * 1) 0).map (fun v => v + 5))
      = SoftmaxLayer.softmaxSample (chunk ([0, 1] : List ℝ) (2 * 1 * 1) 0) :=
  claim_C7_softmax_forward ⟨1, 2, 1, 1, [0, 1]⟩ 0 5 rfl (by decide) (by decide)
